import Mathlib

/-!
Verification of the document indexing and retrieval engine of the RAG backend
(`backend/services/embedding_service.py`, `backend/services/rag_service.py`,
`backend/services/document_service.py`, `backend/utils/text_processing.py`).

Python strings are modelled as lists of characters (`PyStr`); Python floats are
modelled as rationals (`ℚ`), so score arithmetic is exact; Python dicts with a
fixed field set are modelled as structures.  `str.lower()` and the regex
character classes are modelled on the ASCII and Latin-1 ranges, which covers the
French/English text the service processes.  Where a Python `set(...)` is
iterated, the model uses first-occurrence deduplication of the underlying list;
every property proved here is independent of the iteration order of such sets.
-/

/-- A Python `str`, modelled as its list of characters. -/
abbrev PyStr := List Char

/-- Shorthand to turn a Lean string literal into a `PyStr`. -/
def pstr (s : String) : PyStr := s.toList

/-- Python `str.lower()` on one character, for the ASCII and Latin-1 letters
(`A`–`Z` and `À`–`Þ` except `×` map to their lowercase forms). -/
def pyLowerChar (c : Char) : Char :=
  if 65 ≤ c.toNat ∧ c.toNat ≤ 90 then Char.ofNat (c.toNat + 32)
  else if 192 ≤ c.toNat ∧ c.toNat ≤ 222 ∧ c.toNat ≠ 215 then Char.ofNat (c.toNat + 32)
  else c

/-- Python `str.lower()`. -/
def pyLower (s : PyStr) : PyStr := s.map pyLowerChar

/-- Python `\s` / `str.split()` whitespace: space, tab, newline, CR, VT, FF. -/
def isPySpace (c : Char) : Bool :=
  c == ' ' || c == '\t' || c == '\n' || c == '\r' || c == Char.ofNat 11 || c == Char.ofNat 12

/-- Python `\w` on the Latin-1 range: ASCII alphanumerics, `_`, and the
accented letters `À`–`ÿ` (excluding `×` and `÷`). -/
def isWordChar (c : Char) : Bool :=
  (97 ≤ c.toNat && c.toNat ≤ 122) || (65 ≤ c.toNat && c.toNat ≤ 90) ||
  (48 ≤ c.toNat && c.toNat ≤ 57) || c == '_' ||
  (192 ≤ c.toNat && c.toNat ≤ 255 && c.toNat ≠ 215 && c.toNat ≠ 247)

/-- ASCII letter test, the `[a-zA-Z]` regex class. -/
def isAsciiLetter (c : Char) : Bool :=
  (97 ≤ c.toNat && c.toNat ≤ 122) || (65 ≤ c.toNat && c.toNat ≤ 90)

/-- Python `str.strip()`: drop leading and trailing whitespace. -/
def pyStrip (s : PyStr) : PyStr :=
  ((s.dropWhile isPySpace).reverse.dropWhile isPySpace).reverse

/-- Split a string at every character satisfying `p`, keeping empty fields
(the per-character analogue of `re.split`). -/
def splitOnPred (p : Char → Bool) (s : PyStr) : List PyStr :=
  s.foldr
    (fun c acc =>
      if p c then [] :: acc
      else
        match acc with
        | [] => [[c]]
        | w :: ws => (c :: w) :: ws)
    [[]]

/-- Python `str.split()` with no argument: split on whitespace runs, dropping
empty fields. -/
def pySplitWs (s : PyStr) : List PyStr :=
  (splitOnPred isPySpace s).filter (fun w => w ≠ [])

/-- Does `s` start with `pre`?  (Python `str.startswith`.) -/
def pyStartsWith : PyStr → PyStr → Bool
  | _, [] => true
  | [], _ :: _ => false
  | c :: s, d :: t => c == d && pyStartsWith s t

/-- Python substring test `needle in hay`. -/
def pyContains : PyStr → PyStr → Bool
  | [], needle => needle.isEmpty
  | c :: t, needle => pyStartsWith (c :: t) needle || pyContains t needle

/-- First-occurrence deduplication; models the element set of a Python list. -/
def pyDedupAux [DecidableEq α] : List α → List α → List α
  | [], _ => []
  | x :: xs, seen => if x ∈ seen then pyDedupAux xs seen else x :: pyDedupAux xs (x :: seen)

/-- First-occurrence deduplication; models the element set of a Python list. -/
def pyDedup [DecidableEq α] (l : List α) : List α := pyDedupAux l []

/-- Collapse every maximal run of characters satisfying `p` into the single
character `r` (models `re.sub(p+, r, s)`). -/
def collapseRunsAux (p : Char → Bool) (r : Char) : Bool → PyStr → PyStr
  | _, [] => []
  | inRun, c :: t =>
    if p c then
      if inRun then collapseRunsAux p r true t else r :: collapseRunsAux p r true t
    else c :: collapseRunsAux p r false t

/-- Collapse every maximal run of characters satisfying `p` into the single
character `r` (models `re.sub(p+, r, s)`). -/
def collapseRuns (p : Char → Bool) (r : Char) (s : PyStr) : PyStr :=
  collapseRunsAux p r false s

/-- Python `min` on rationals (`min(a, b)` returns `b` only when `b < a`). -/
def pyMinQ (a b : ℚ) : ℚ := if b < a then b else a

/-- Python `max` on rationals (`max(a, b)` returns `b` only when `b > a`). -/
def pyMaxQ (a b : ℚ) : ℚ := if b > a then b else a

/-- `TextProcessor.clean_text` with `aggressive=True` (the default used by the
tokenizer): strip, collapse whitespace to single spaces, drop characters
outside `[\w\s.!?,;:\-()]`, collapse repeated `.` `!` `?`, strip again. -/
def clean_text (s : PyStr) : PyStr :=
  let s1 := pyStrip s
  let s2 := collapseRuns isPySpace ' ' s1
  let s3 := s2.filter (fun c =>
    isWordChar c || isPySpace c ||
    c == '.' || c == '!' || c == '?' || c == ',' || c == ';' ||
    c == ':' || c == '-' || c == '(' || c == ')')
  let s4 := collapseRuns (fun c => c == '.') '.' s3
  let s5 := collapseRuns (fun c => c == '!') '!' s4
  let s6 := collapseRuns (fun c => c == '?') '?' s5
  pyStrip s6

/-- `TextProcessor.tokenize_sentences`: clean, split on `.!?` runs, strip each
fragment, keep those longer than 5 characters. -/
def tokenize_sentences (s : PyStr) : List PyStr :=
  if s = [] then []
  else
    ((splitOnPred (fun c => c == '.' || c == '!' || c == '?') (clean_text s)).map
      pyStrip).filter (fun x => decide (x ≠ [] ∧ x.length > 5))

/-- Python slice `s[-k:]`; for `k = 0` this is the whole string. -/
def pySliceFromNeg (s : PyStr) (k : Nat) : PyStr :=
  if k = 0 then s else s.drop (s.length - k)

/-- The inner word-packing loop of `TextProcessor.chunk_text`, used when one
sentence alone exceeds `chunk_size`; state is `(chunks, temp_chunk)`. -/
def word_split_step (chunkSize : Nat) (st : List PyStr × PyStr) (w : PyStr) :
    List PyStr × PyStr :=
  let chunks := st.1
  let temp := st.2
  if temp.length + w.length + 1 > chunkSize then
    (if temp ≠ [] then chunks ++ [pyStrip temp] else chunks, w)
  else
    (chunks, if temp = [] then w else temp ++ [' '] ++ w)

/-- One iteration of the sentence loop of `TextProcessor.chunk_text`; state is
`(chunks, current_chunk)`. -/
def chunk_step (chunkSize overlap : Nat) (st : List PyStr × PyStr)
    (sentence : PyStr) : List PyStr × PyStr :=
  let chunks := st.1
  let current := st.2
  if current.length + sentence.length + 1 > chunkSize then
    if current ≠ [] then
      let chunks1 := chunks ++ [pyStrip current]
      if current.length > overlap then
        (chunks1, pySliceFromNeg current overlap ++ [' '] ++ sentence)
      else (chunks1, sentence)
    else
      if sentence.length > chunkSize then
        (pySplitWs sentence).foldl (word_split_step chunkSize) (chunks, [])
      else (chunks, sentence)
  else
    (chunks, if current = [] then sentence else current ++ [' '] ++ sentence)

/-- `TextProcessor.chunk_text`: sentence-boundary-aware greedy packing with a
character-suffix overlap. -/
def chunk_text (text : PyStr) (chunkSize overlap : Nat) : List PyStr :=
  if text = [] then []
  else if text.length ≤ chunkSize then [text]
  else
    let st := (tokenize_sentences text).foldl (chunk_step chunkSize overlap) ([], [])
    let chunks := if st.2 ≠ [] then st.1 ++ [pyStrip st.2] else st.1
    chunks.filter (fun c => pyStrip c ≠ [])

/-- The length of the longest tokenized sentence of `text`. -/
def max_sentence_length (text : PyStr) : Nat :=
  ((tokenize_sentences text).map List.length).foldr max 0

/-- Concrete input for the chunking boundary analysis: two 8-character
sentences, total length 19 > chunk_size 10, overlap 5. -/
def c4Text : PyStr := pstr "abcdefgh. ijklmnop."

/-- The name normalization of `EmbeddingService._extract_person_information`
(lines 288–292), repeated verbatim in `_is_same_person` (lines 966–968) and
`_build_isolation_filters` (lines 827–829): lowercase, delete every character
outside `[a-zA-Z\s]`, strip, then replace each whitespace run by `_`. -/
def normalize_name (s : PyStr) : PyStr :=
  collapseRuns isPySpace '_'
    (pyStrip ((pyLower s).filter (fun c => isAsciiLetter c || isPySpace c)))

/-- The chunk metadata fields consulted by the search path (a projection of the
`base_meta` dict built in `index_document`, lines 178–200). -/
structure ChunkMeta where
  person_name : PyStr := []
  person_name_normalized : PyStr := []
  document_id : PyStr := []
  source_file : PyStr := []
  chunk_index : Nat := 0
  chunk_type : PyStr := pstr "general"
  section_title : PyStr := []
  keywords : PyStr := []
deriving DecidableEq

/-- `EmbeddingService._is_same_person` (lines 958–978): an empty target matches
everything; otherwise accept on case-insensitive name equality, normalized-name
equality, the lowercased target being a substring of the lowercased stored
name, or any word of the target longer than 2 characters being a substring of
the lowercased stored name. -/
def _is_same_person (metadata : ChunkMeta) (target_person : PyStr) : Bool :=
  if target_person = [] then true
  else
    let person_name := metadata.person_name
    let target_normalized := normalize_name target_person
    (pyLower person_name == pyLower target_person) ||
    (metadata.person_name_normalized == target_normalized) ||
    pyContains (pyLower person_name) (pyLower target_person) ||
    (pySplitWs target_person).any (fun part =>
      decide (part.length > 2) && pyContains (pyLower person_name) (pyLower part))

/-- The per-category keyword lists of `_identify_chunk_type` (lines 634–643),
in the insertion order of the Python `patterns` dict. -/
def type_patterns : List (PyStr × List PyStr) :=
  [ (pstr "education",
      [pstr "formation", pstr "diplôme", pstr "université", pstr "école", pstr "master",
       pstr "licence", pstr "baccalauréat", pstr "étude", pstr "cursus"]),
    (pstr "experience",
      [pstr "stage", pstr "expérience", pstr "emploi", pstr "poste", pstr "entreprise",
       pstr "société", pstr "travail", pstr "mission", pstr "responsabilité"]),
    (pstr "project",
      [pstr "projet", pstr "réalisation", pstr "développement", pstr "création",
       pstr "conception", pstr "implémentation", pstr "application", pstr "site web"]),
    (pstr "skills",
      [pstr "compétence", pstr "skill", pstr "maîtrise", pstr "connaissance",
       pstr "expertise", pstr "niveau", pstr "langage", pstr "outil", pstr "technologie"]),
    (pstr "certification",
      [pstr "certification", pstr "diplôme", pstr "titre", pstr "qualification",
       pstr "accréditation", pstr "attestation"]),
    (pstr "contact",
      [pstr "contact", pstr "téléphone", pstr "email", pstr "adresse", pstr "linkedin",
       pstr "github", pstr "@", pstr "mail"]),
    (pstr "languages",
      [pstr "langue", pstr "anglais", pstr "français", pstr "espagnol", pstr "arabe",
       pstr "niveau", pstr "bilingue", pstr "courant"]),
    (pstr "personal_info",
      [pstr "nom", pstr "âge", pstr "nationalité", pstr "situation", pstr "permis",
       pstr "véhicule"]) ]

/-- Keyword-hit count of one category: how many of its keywords occur as
substrings of the lowercased chunk text. -/
def type_score (text_lower : PyStr) (kws : List PyStr) : Nat :=
  (kws.filter (fun k => pyContains text_lower k)).length

/-- The `type_scores` dict of `_identify_chunk_type` (lines 646–650): the
positive-score categories, in dict insertion order. -/
def type_scores (text : PyStr) : List (PyStr × Nat) :=
  (type_patterns.map (fun p => (p.1, type_score (pyLower text) p.2))).filter
    (fun p => decide (p.2 > 0))

/-- Python `max(items, key=value)` over a nonempty sequence: the first element
whose value no later element strictly exceeds. -/
def py_max_first (x : PyStr × Nat) (xs : List (PyStr × Nat)) : PyStr × Nat :=
  xs.foldl (fun best p => if p.2 > best.2 then p else best) x

/-- `EmbeddingService._identify_chunk_type` (lines 630–656): the best-scoring
category via Python `max` over the positive-score dict, or `"general"` when no
category matched. -/
def _identify_chunk_type (text : PyStr) : PyStr :=
  match type_scores text with
  | [] => pstr "general"
  | x :: xs => (py_max_first x xs).1

/-- The `section_mapping` dict of `_identify_chunk_type_from_section`
(lines 612–622), in insertion order. -/
def section_mapping : List (PyStr × PyStr) :=
  [ (pstr "formation", pstr "education"),
    (pstr "expérience", pstr "experience"),
    (pstr "compétences", pstr "skills"),
    (pstr "projets", pstr "project"),
    (pstr "certifications", pstr "certification"),
    (pstr "contact", pstr "contact"),
    (pstr "langues", pstr "languages"),
    (pstr "profil", pstr "profile"),
    (pstr "objectif", pstr "objective") ]

/-- `EmbeddingService._identify_chunk_type_from_section` (lines 608–628): the
first mapping entry whose key occurs in the lowercased section title wins;
otherwise fall back to content-based classification. -/
def _identify_chunk_type_from_section (section_title text : PyStr) : PyStr :=
  match section_mapping.find? (fun kv => pyContains (pyLower section_title) kv.1) with
  | some kv => kv.2
  | none => _identify_chunk_type text

/-- Python `str.split(sep)` for a nonempty separator, leftmost non-overlapping
matches; the unreachable empty-separator case returns `[s]`. -/
def splitOnSep (sep : PyStr) : PyStr → List PyStr
  | [] => [[]]
  | c :: t =>
    if sep ≠ [] ∧ pyStartsWith (c :: t) sep = true then
      [] :: splitOnSep sep ((c :: t).drop sep.length)
    else
      match splitOnSep sep t with
      | [] => [[c]]
      | w :: ws => (c :: w) :: ws
termination_by s => s.length
decreasing_by
  · simp only [List.length_drop, List.length_cons]
    have : sep.length ≥ 1 := by
      rcases sep with _ | ⟨a, b⟩
      · simp at *
      · simp
    omega
  · simp only [List.length_cons]
    omega

/-- Stable insertion into a descending-sorted list: `x` is placed after every
element with key ≥ its own, matching Python's stable `sort(reverse=True)`. -/
def insertDescBy {α : Type _} (key : α → ℚ) (x : α) : List α → List α
  | [] => [x]
  | y :: ys => if key x > key y then x :: y :: ys else y :: insertDescBy key x ys

/-- Stable descending sort by a rational key (Python `sorted(..., reverse=True)`
and `list.sort(..., reverse=True)` are stable; a stable sort is unique, so
insertion sort models them exactly). -/
def sortDescBy {α : Type _} (key : α → ℚ) (l : List α) : List α :=
  l.foldl (fun acc x => insertDescBy key x acc) []

/-- The `domain_keywords` dict of `EmbeddingService._extract_keywords`
(lines 575–582), in insertion order. -/
def domain_keywords : List (PyStr × List PyStr) :=
  [ (pstr "web",
      [pstr "html", pstr "css", pstr "javascript", pstr "react", pstr "vue",
       pstr "angular", pstr "php", pstr "laravel", pstr "django", pstr "flask"]),
    (pstr "mobile",
      [pstr "android", pstr "ios", pstr "react native", pstr "flutter",
       pstr "kotlin", pstr "swift"]),
    (pstr "data",
      [pstr "python", pstr "r", pstr "machine learning", pstr "data science",
       pstr "ai", pstr "tensorflow", pstr "pytorch", pstr "pandas"]),
    (pstr "database",
      [pstr "sql", pstr "mysql", pstr "postgresql", pstr "mongodb", pstr "redis",
       pstr "nosql"]),
    (pstr "devops",
      [pstr "docker", pstr "kubernetes", pstr "aws", pstr "azure", pstr "gcp",
       pstr "git", pstr "jenkins", pstr "ci/cd"]),
    (pstr "general",
      [pstr "java", pstr "c++", pstr "c#", pstr "python", pstr "api", pstr "rest",
       pstr "microservices", pstr "agile", pstr "scrum"]) ]

/-- The `section_keywords` dict of `EmbeddingService._extract_keywords`
(lines 584–590), in insertion order. -/
def section_keywords : List (PyStr × List PyStr) :=
  [ (pstr "formation",
      [pstr "université", pstr "école", pstr "diplôme", pstr "master",
       pstr "licence", pstr "formation", pstr "étude"]),
    (pstr "expérience",
      [pstr "stage", pstr "emploi", pstr "poste", pstr "entreprise",
       pstr "société", pstr "travail", pstr "mission"]),
    (pstr "projets",
      [pstr "projet", pstr "développement", pstr "création", pstr "réalisation",
       pstr "conception", pstr "implémentation"]),
    (pstr "compétences",
      [pstr "compétence", pstr "maîtrise", pstr "connaissance", pstr "expertise",
       pstr "skill", pstr "niveau"]),
    (pstr "certifications",
      [pstr "certification", pstr "diplôme", pstr "titre", pstr "qualification",
       pstr "accréditation"]) ]

/-- `EmbeddingService._extract_keywords` (lines 570–606): collect every domain
keyword occurring in the lowercased text, plus the section keywords when the
section key occurs in the lowercased section title; Python then takes
`list(set(keywords))[:15]`, whose iteration order is interpreter-dependent —
modelled as first-occurrence deduplication (every property proved below is
independent of this order). -/
def _extract_keywords (text : PyStr) (section_title : PyStr) : List PyStr :=
  let textLower := pyLower text
  let fromDomains := domain_keywords.foldl
    (fun acc p => acc ++ p.2.filter (fun t => pyContains textLower t)) []
  let sectionLower := pyLower section_title
  let fromSections := section_keywords.foldl
    (fun acc p =>
      if pyContains sectionLower p.1 then
        acc ++ p.2.filter (fun t => pyContains textLower t)
      else acc) []
  (pyDedup (fromDomains ++ fromSections)).take 15

/-- A search-result record as built by the search strategies (the result dicts
of `_format_search_results` and `_keyword_search_with_isolation`); optional
dict keys that are only added later (`search_strategies`, `final_score`,
`primary_strategy`) are modelled with `Option`. -/
structure SearchResult where
  content : PyStr := []
  similarity_score : ℚ := 0
  distance : ℚ := 0
  document_id : PyStr := []
  source_file : PyStr := []
  chunk_index : Nat := 0
  chunk_type : PyStr := []
  keywords : PyStr := []
  metadata : ChunkMeta := {}
  search_strategy : PyStr := []
  search_strategies : Option (List PyStr) := none
  primary_strategy : Option PyStr := none
  multi_strategy : Bool := false
  isolation_valid : Bool := false
  keyword_matches : Nat := 0
  word_matches : Nat := 0
  final_score : Option ℚ := none
deriving DecidableEq

/-- `EmbeddingService._format_search_results` (lines 1140–1172): one ChromaDB
row is `(document, metadata, distance)`; the distance→similarity conversion is
`max(0.0, min(1.0, 1.0 - distance))`. -/
def _format_search_results (rows : List (PyStr × ChunkMeta × ℚ)) : List SearchResult :=
  rows.map (fun row =>
    { content := row.1
      similarity_score := pyMaxQ 0 (pyMinQ 1 (1 - row.2.2))
      distance := row.2.2
      document_id := row.2.1.document_id
      source_file := row.2.1.source_file
      chunk_index := row.2.1.chunk_index
      chunk_type := row.2.1.chunk_type
      keywords := row.2.1.keywords
      metadata := row.2.1 })

/-- The query keyword list of `_keyword_search_with_isolation`
(`self._extract_keywords(query.lower())`). -/
def query_keywords_of (query : PyStr) : List PyStr :=
  _extract_keywords (pyLower query) []

/-- The query word set of `_keyword_search_with_isolation`
(`set(query.lower().split())`). -/
def query_words_of (query : PyStr) : List PyStr :=
  pyDedup (pySplitWs (pyLower query))

/-- The match-counting loop of `_keyword_search_with_isolation` (lines
914–931): `+2` per query keyword occurring in one of the chunk's stored
keywords, `+1` per query keyword occurring in the document text, `+1` per
query word longer than 2 characters occurring in the document text. -/
def keyword_match_counts (queryKeywords queryWords : List PyStr)
    (doc : PyStr) (meta : ChunkMeta) : Nat × Nat :=
  let docLower := pyLower doc
  let metaKeywords := splitOnSep (pstr ", ") (pyLower meta.keywords)
  let km := queryKeywords.foldl (fun acc kw =>
      acc + (if metaKeywords.any (fun mk => pyContains mk kw) then 2 else 0)
          + (if pyContains docLower kw then 1 else 0)) 0
  let wm := queryWords.foldl (fun acc w =>
      acc + (if w.length > 2 ∧ pyContains docLower w = true then 1 else 0)) 0
  (km, wm)

/-- `EmbeddingService._keyword_search_with_isolation` (lines 880–956).  The
`store_docs` parameter abstracts the `(document, metadata)` rows returned by
`collection.get` under the isolation filters.  Each candidate is re-checked
with `_is_same_person`; scored candidates get
`similarity_score = 0.8 * min(1, total/(len(kw)+len(words)))` and
`distance = 1 - min(1, total/(len(kw)+len(words)))`, are sorted descending and
truncated to `top_k`.  `keyword_search_step` is one iteration of its
per-document loop. -/
def keyword_search_step (queryKeywords queryWords : List PyStr) (target_person : PyStr)
    (acc : List SearchResult) (dm : PyStr × ChunkMeta) : List SearchResult :=
  if target_person ≠ [] ∧ _is_same_person dm.2 target_person = false then acc
  else
    let counts := keyword_match_counts queryKeywords queryWords dm.1 dm.2
    let total := counts.1 + counts.2
    if total > 0 then
      let kscore : ℚ := pyMinQ 1 ((total : ℚ) /
        ((queryKeywords.length : ℚ) + (queryWords.length : ℚ)))
      acc ++ [{ content := dm.1
                similarity_score := kscore * 0.8
                distance := 1 - kscore
                document_id := dm.2.document_id
                source_file := dm.2.source_file
                chunk_index := dm.2.chunk_index
                chunk_type := dm.2.chunk_type
                keywords := dm.2.keywords
                metadata := dm.2
                keyword_matches := counts.1
                word_matches := counts.2
                isolation_valid := true }]
    else acc

def _keyword_search_with_isolation (query : PyStr) (target_person : PyStr)
    (top_k : Nat) (store_docs : List (PyStr × ChunkMeta)) : List SearchResult :=
  let base := store_docs.foldl
    (keyword_search_step (query_keywords_of query) (query_words_of query) target_person) []
  (sortDescBy (fun r => r.similarity_score) base).take top_k

/-- `EmbeddingService._validate_isolation` (lines 980–1001): with no target
everything is marked valid and kept; with a target, each result's
`isolation_valid` is set from `_is_same_person` and only valid results are
kept. -/
def _validate_isolation (results : List SearchResult) (target_person : PyStr) :
    List SearchResult :=
  if target_person = [] then
    results.map (fun r => { r with isolation_valid := true })
  else
    (results.map (fun r =>
      { r with isolation_valid := _is_same_person r.metadata target_person })).filter
      (fun r => r.isolation_valid)

/-- Decimal representation of a natural number, for Python f-string keys. -/
def nat_to_pystr (n : Nat) : PyStr := (toString n).toList

/-- The dedup key of `_merge_and_deduplicate_isolated_results` (line 1010):
`f"{document_id}_{chunk_index}_{person_name}"`. -/
def merge_key (r : SearchResult) : PyStr :=
  r.document_id ++ pstr "_" ++ nat_to_pystr r.chunk_index ++ pstr "_" ++
    r.metadata.person_name

/-- Lookup in the insertion-ordered dict `results_map`. -/
def assoc_find (m : List (PyStr × SearchResult)) (k : PyStr) : Option SearchResult :=
  match m.find? (fun kv => kv.1 == k) with
  | some kv => some kv.2
  | none => none

/-- In-place value update of the insertion-ordered dict `results_map`. -/
def assoc_update (m : List (PyStr × SearchResult)) (k : PyStr) (v : SearchResult) :
    List (PyStr × SearchResult) :=
  m.map (fun kv => if kv.1 == k then (kv.1, v) else kv)

/-- One iteration of the merge loop of
`_merge_and_deduplicate_isolated_results` (lines 1008–1031). -/
def merge_step (m : List (PyStr × SearchResult)) (r : SearchResult) :
    List (PyStr × SearchResult) :=
  let key := merge_key r
  match assoc_find m key with
  | none => m ++ [(key, r)]
  | some existing =>
    let e1 := if r.similarity_score > existing.similarity_score then
        { existing with
          similarity_score := r.similarity_score
          primary_strategy := some r.search_strategy }
      else existing
    let strategies0 := e1.search_strategies.getD [e1.search_strategy]
    let strategies :=
      if r.search_strategy ≠ [] ∧ r.search_strategy ∉ strategies0 then
        strategies0 ++ [r.search_strategy]
      else strategies0
    let e2 := { e1 with
      search_strategies := some strategies
      multi_strategy := decide (strategies.length > 1) }
    assoc_update m key e2

/-- `EmbeddingService._merge_and_deduplicate_isolated_results`
(lines 1003–1037): group by `merge_key`, keep the best similarity per group,
record contributing strategies, then sort by similarity descending. -/
def _merge_and_deduplicate_isolated_results (l : List SearchResult) : List SearchResult :=
  sortDescBy (fun r => r.similarity_score) ((l.foldl merge_step []).map (fun kv => kv.2))

/-- The `type_bonus` dict lookup of `_rerank_with_isolation_bonus`
(lines 1067–1074), default 0. -/
def type_bonus_of (chunk_type : PyStr) : ℚ :=
  if chunk_type = pstr "skills" then 0.15
  else if chunk_type = pstr "experience" then 0.12
  else if chunk_type = pstr "project" then 0.10
  else if chunk_type = pstr "education" then 0.08
  else if chunk_type = pstr "certification" then 0.08
  else 0

/-- The per-result scoring of `_rerank_with_isolation_bonus` (lines
1051–1133): composite score, then clamped to `[0, 1]` by
`max(0.0, min(1.0, final_score))` and stored as `final_score`.  The
`< 50` penalty branch sits behind `elif content_length < 100`, mirroring the
source (it is unreachable, as in the source). -/
def rerank_one (query target_person : PyStr) (r : SearchResult) : SearchResult :=
  let queryLower := pyLower query
  let queryWords := pyDedup (pySplitWs queryLower)
  let queryKeywords := pyDedup (_extract_keywords queryLower [])
  let contentWords := pyDedup (pySplitWs (pyLower r.content))
  let wordOverlap := (queryWords.filter (fun w => decide (w ∈ contentWords))).length
  let wordScore : ℚ := (wordOverlap : ℚ) / ((max queryWords.length 1 : Nat) : ℚ)
  let docKeywords := pyDedup (splitOnSep (pstr ", ") (pyLower r.metadata.keywords))
  let keywordOverlap := (queryKeywords.filter (fun k => decide (k ∈ docKeywords))).length
  let keywordScore : ℚ :=
    if queryKeywords ≠ [] then
      (keywordOverlap : ℚ) / ((max queryKeywords.length 1 : Nat) : ℚ)
    else 0
  let typeBonus := type_bonus_of r.metadata.chunk_type
  let isolationBonus : ℚ :=
    if target_person ≠ [] then
      (if r.metadata.person_name ≠ [] ∧
          pyContains (pyLower r.metadata.person_name) (pyLower target_person) = true
        then (0.20 : ℚ) else 0) +
      (if pyLower r.metadata.person_name = pyLower target_person then (0.10 : ℚ) else 0)
    else 0
  let multiBonus : ℚ := if r.multi_strategy then 0.05 else 0
  let sectionTitle := pyLower r.metadata.section_title
  let sectionBonus : ℚ :=
    0.03 * ((queryWords.filter (fun w => pyContains sectionTitle w)).length : ℚ)
  let lengthPenalty : ℚ :=
    if r.content.length < 100 then -0.05
    else if r.content.length < 50 then -0.10
    else 0
  let finalScore := pyMaxQ 0 (pyMinQ 1
    (r.similarity_score * 0.50 + wordScore * 0.15 + keywordScore * 0.10 +
      isolationBonus + typeBonus + multiBonus + sectionBonus + lengthPenalty))
  { r with final_score := some finalScore }

/-- `EmbeddingService._rerank_with_isolation_bonus` (lines 1039–1138): score
every result, then sort by `final_score` (falling back to `similarity_score`)
descending. -/
def _rerank_with_isolation_bonus (query : PyStr) (results : List SearchResult)
    (target_person : PyStr) : List SearchResult :=
  sortDescBy (fun r => r.final_score.getD r.similarity_score)
    (results.map (rerank_one query target_person))

/-- `EmbeddingService.search_similar_documents` (lines 700–815).  The
`semantic_rows` parameter abstracts the ChromaDB nearest-neighbour answer for
the (enriched) query embedding under the isolation filters, and `store_docs`
abstracts `collection.get` for the keyword strategy; embedding generation and
logging are outside the model.  `collection_empty` is the `total_chunks == 0`
early return. -/
def search_similar_documents
    (semantic_rows : List (PyStr × ChunkMeta × ℚ))
    (store_docs : List (PyStr × ChunkMeta))
    (query : PyStr) (top_k : Nat) (threshold : ℚ) (target_person : PyStr)
    (enable_reranking enable_hybrid_search : Bool)
    (collection_empty : Bool) : List SearchResult :=
  if collection_empty then []
  else
    let semantic := (_format_search_results semantic_rows).map
      (fun r => { r with search_strategy := pstr "semantic_isolated" })
    let keyword :=
      if enable_hybrid_search ∧ query ≠ [] then
        (_keyword_search_with_isolation query target_person top_k store_docs).map
          (fun r => { r with search_strategy := pstr "keyword_isolated" })
      else []
    let results := semantic ++ keyword
    if results = [] then []
    else
      let validated := _validate_isolation results target_person
      let merged := _merge_and_deduplicate_isolated_results validated
      let reranked :=
        if enable_reranking ∧ query ≠ [] ∧ merged ≠ [] then
          _rerank_with_isolation_bonus query merged target_person
        else merged
      (reranked.filter (fun r => r.final_score.getD r.similarity_score ≥ threshold)).take
        top_k

/-- The per-result record built by `RAGService._retrieve_relevant_documents`
(`doc_data`, with its nested metadata flattened). -/
structure RelevantDoc where
  content : PyStr
  similarity_score : ℚ
  document_id : PyStr
  source_file : PyStr
  chunk_index : Nat
  confidence : ℚ
deriving DecidableEq

/-- The `doc_data` construction of `_retrieve_relevant_documents`. -/
def to_doc_data (r : SearchResult) : RelevantDoc :=
  { content := r.content
    similarity_score := r.similarity_score
    document_id := r.document_id
    source_file := r.source_file
    chunk_index := r.chunk_index
    confidence := r.similarity_score }

/-- `RAGService._retrieve_relevant_documents` (lines 431–508), given the raw
result list returned by `search_similar_documents(query, top_k, threshold=0.0)`:
primary-threshold filter; if that keeps fewer than 2 results and the raw list
is nonempty, refilter with the fallback threshold; if that is still empty,
return the top 2 raw results by similarity score. -/
def _retrieve_relevant_documents (results : List SearchResult)
    (similarity_threshold fallback_threshold : ℚ) : List RelevantDoc :=
  let docs1 := (results.filter
    (fun r => r.similarity_score ≥ similarity_threshold)).map to_doc_data
  let docs2 :=
    if docs1.length < 2 ∧ results ≠ [] then
      (results.filter (fun r => r.similarity_score ≥ fallback_threshold)).map to_doc_data
    else docs1
  if docs2 = [] ∧ results ≠ [] then
    ((sortDescBy (fun r => r.similarity_score) results).take 2).map to_doc_data
  else docs2

/-- A persisted vector-store record (ChromaDB id, metadata `document_id`, and
stored text). -/
structure VChunk where
  chunk_id : PyStr
  document_id : PyStr
  text : PyStr
deriving DecidableEq

/-- `collection.delete(where={"document_id": {"$eq": str(document_id)}})`
(line 145): remove every record of the target document. -/
def delete_where_document_id (store : List VChunk) (docId : PyStr) : List VChunk :=
  store.filter (fun c => decide (c.document_id ≠ docId))

/-- The records inserted by `index_document` for one run: ids
`f"{document_id}_chunk_{i}_{timestamp}"`, every metadata `document_id` set to
the target document (lines 168–200, 227–233). -/
def mk_chunk_records (docId : PyStr) (chunkTexts : List PyStr) (timestamp : PyStr) :
    List VChunk :=
  ((List.range chunkTexts.length).zip chunkTexts).map (fun p =>
    { chunk_id := docId ++ pstr "_chunk_" ++ nat_to_pystr p.1 ++ pstr "_" ++ timestamp
      document_id := docId
      text := p.2 })

/-- `EmbeddingService.index_document` (lines 129–245) at the vector-store
level: the empty-content guard precedes the delete-by-`document_id`, which
precedes the insertion of the new chunk records.  Chunk production
(`_create_isolated_chunks` plus the skip of whitespace-only chunk texts) is
deterministic in the content and metadata and is abstracted into the
`chunkTexts` parameter; embedding generation is outside the model (its failure
paths return `False` after the delete, like the empty-chunk path). -/
def index_document (docId : PyStr) (content : PyStr) (chunkTexts : List PyStr)
    (timestamp : PyStr) (store : List VChunk) : Bool × List VChunk :=
  if pyStrip content = [] then (false, store)
  else
    let store1 := delete_where_document_id store docId
    if chunkTexts = [] then (false, store1)
    else (true, store1 ++ mk_chunk_records docId chunkTexts timestamp)

/-- A relational `Document` row (id, checksum `file_hash`, filename). -/
structure StoredDocument where
  id : Nat
  file_hash : PyStr
  filename : PyStr
deriving DecidableEq

/-- The persistent state touched by `DocumentService.process_document`:
document rows, chunk rows, and the vector store. -/
structure DocumentStore where
  documents : List StoredDocument := []
  chunks : List (Nat × PyStr) := []
  vector_chunks : List VChunk := []
deriving DecidableEq

/-- `DocumentService._check_duplicate` (lines 889–895): the first stored
document whose `file_hash` equals the checksum. -/
def _check_duplicate (db : DocumentStore) (checksum : PyStr) : Option StoredDocument :=
  db.documents.find? (fun d => d.file_hash == checksum)

/-- The result record of `DocumentService.process_document`
(`DocumentProcessingResult`). -/
structure DocumentProcessingResult where
  document_id : Nat
  success : Bool
  chunks_count : Nat
  error_message : Option PyStr
deriving DecidableEq

/-- `DocumentService.process_document` (lines 91–177) around the duplicate
check: validation, metadata extraction and chunking are abstracted (the file's
checksum and produced chunk texts are parameters); on a checksum hit the
function returns `success=False` with the existing document's id and the
message `"Document déjà existant"` before any row or vector record is
created; otherwise it persists the document row, the chunk rows and the
vector records. -/
def process_document (db : DocumentStore) (checksum : PyStr) (filename : PyStr)
    (new_id : Nat) (chunk_texts : List PyStr) (timestamp : PyStr) :
    DocumentProcessingResult × DocumentStore :=
  match _check_duplicate db checksum with
  | some existing =>
      ({ document_id := existing.id
         success := false
         chunks_count := 0
         error_message := some (pstr "Document déjà existant") }, db)
  | none =>
      ({ document_id := new_id
         success := true
         chunks_count := chunk_texts.length
         error_message := none },
       { documents := db.documents ++ [{ id := new_id, file_hash := checksum, filename := filename }]
         chunks := db.chunks ++ chunk_texts.map (fun t => (new_id, t))
         vector_chunks := db.vector_chunks ++
           mk_chunk_records (nat_to_pystr new_id) chunk_texts timestamp })

/-- Metadata of the isolation-scenario person "Alice Dupont". -/
def aliceMeta : ChunkMeta :=
  { person_name := pstr "Alice Dupont"
    person_name_normalized := pstr "alice_dupont"
    document_id := pstr "d1"
    source_file := pstr "alice.pdf"
    chunk_index := 1 }

/-- Metadata of the isolation-scenario person "Bob Martin". -/
def bobMeta : ChunkMeta :=
  { person_name := pstr "Bob Martin"
    person_name_normalized := pstr "bob_martin"
    document_id := pstr "d2"
    source_file := pstr "bob.pdf"
    chunk_index := 1 }

/-- Semantic rows for the isolation scenario: topically identical chunks of two
different people, Bob's closer to the query than Alice's. -/
def c1Rows : List (PyStr × ChunkMeta × ℚ) :=
  [ (pstr "Python et Machine Learning", aliceMeta, 0.2),
    (pstr "Python et Machine Learning", bobMeta, 0.1) ]

/-- A store row for the keyword-search scoring witness. -/
def c10Store : List (PyStr × ChunkMeta) :=
  [ (pstr "python developer",
     { aliceMeta with keywords := pstr "python, web" }) ]

/-- A raw search result with similarity 0.08: below the primary threshold 0.1,
above the fallback threshold 0.05. -/
def c6Result : SearchResult :=
  { content := pstr "chunk text"
    similarity_score := 0.08
    distance := 0.92
    document_id := pstr "d1"
    source_file := pstr "alice.pdf"
    chunk_index := 0 }

/-- An input result with an out-of-range base similarity, to exercise the
final-score clamp. -/
def c8Input : SearchResult :=
  { content := pstr "compétences python"
    similarity_score := 5
    distance := 0
    metadata := { aliceMeta with chunk_type := pstr "skills" } }

/-! ### Supporting lemmas -/

theorem foldl_preserve {α σ : Type _} {P : σ → Prop} {Q : α → Prop} (f : σ → α → σ)
    (hstep : ∀ s a, P s → Q a → P (f s a)) :
    ∀ (l : List α), (∀ a ∈ l, Q a) → ∀ s, P s → P (l.foldl f s) := by
  intro l
  induction l with
  | nil => intro _ s hs; exact hs
  | cons a t ih =>
    intro hl s hs
    exact ih (fun b hb => hl b (List.mem_cons_of_mem a hb)) (f s a)
      (hstep s a hs (hl a (List.mem_cons_self a t)))

theorem splitOnPred_cons (p : Char → Bool) (c : Char) (t : PyStr) :
    splitOnPred p (c :: t) =
      if p c then [] :: splitOnPred p t
      else
        match splitOnPred p t with
        | [] => [[c]]
        | w :: ws => (c :: w) :: ws := rfl

theorem mem_splitOnPred_length (p : Char → Bool) (s : PyStr) :
    ∀ w ∈ splitOnPred p s, w.length ≤ s.length := by
  induction s with
  | nil =>
    intro w hw
    simp only [splitOnPred, List.foldr_nil, List.mem_singleton] at hw
    simp [hw]
  | cons c t ih =>
    intro w hw
    rw [splitOnPred_cons] at hw
    by_cases hc : p c
    · simp only [if_pos hc, List.mem_cons] at hw
      rcases hw with h | h
      · simp [h]
      · exact (ih w h).trans (by simp)
    · simp only [if_neg hc] at hw
      rcases hsplit : splitOnPred p t with _ | ⟨w0, ws⟩
      · rw [hsplit] at hw
        simp only [List.mem_singleton] at hw
        simp [hw]
      · rw [hsplit] at hw
        simp only [List.mem_cons] at hw
        rcases hw with h | h
        · have h0 : w0 ∈ splitOnPred p t := by rw [hsplit]; exact List.mem_cons_self _ _
          have := ih w0 h0
          subst h
          simp only [List.length_cons]
          omega
        · have : w ∈ splitOnPred p t := by rw [hsplit]; exact List.mem_cons_of_mem _ h
          exact (ih w this).trans (by simp)

theorem mem_pySplitWs_length (s : PyStr) : ∀ w ∈ pySplitWs s, w.length ≤ s.length := by
  intro w hw
  exact mem_splitOnPred_length _ s w (List.mem_filter.1 hw).1

theorem pyStrip_length_le (s : PyStr) : (pyStrip s).length ≤ s.length := by
  unfold pyStrip
  calc (((s.dropWhile isPySpace).reverse.dropWhile isPySpace).reverse).length
      = ((s.dropWhile isPySpace).reverse.dropWhile isPySpace).length := by
        exact List.length_reverse _
    _ ≤ (s.dropWhile isPySpace).reverse.length := (List.dropWhile_sublist _).length_le
    _ = (s.dropWhile isPySpace).length := List.length_reverse _
    _ ≤ s.length := (List.dropWhile_sublist _).length_le

theorem pySliceFromNeg_length_le (s : PyStr) (k : Nat) (hk : 1 ≤ k) :
    (pySliceFromNeg s k).length ≤ k := by
  unfold pySliceFromNeg
  rw [if_neg (by omega)]
  rw [List.length_drop]
  omega

theorem le_foldr_max (l : List Nat) : ∀ x ∈ l, x ≤ l.foldr max 0 := by
  induction l with
  | nil => intro x hx; simp at hx
  | cons a t ih =>
    intro x hx
    simp only [List.foldr_cons]
    rcases List.mem_cons.1 hx with h | h
    · subst h; exact le_max_left _ _
    · exact (ih x h).trans (le_max_right _ _)

theorem sentence_le_max_sentence_length (text : PyStr) :
    ∀ s ∈ tokenize_sentences text, s.length ≤ max_sentence_length text := by
  intro s hs
  exact le_foldr_max _ _ (List.mem_map_of_mem List.length hs)

theorem word_split_step_preserve (N M ov : Nat) (st : List PyStr × PyStr) (w : PyStr)
    (hw : w.length ≤ M)
    (h1 : ∀ d ∈ st.1, d.length ≤ max N M + ov + 1)
    (h2 : st.2.length ≤ max N M) :
    (∀ d ∈ (word_split_step N st w).1, d.length ≤ max N M + ov + 1) ∧
      (word_split_step N st w).2.length ≤ max N M := by
  have hKN : N ≤ max N M := le_max_left N M
  have hKM : M ≤ max N M := le_max_right N M
  have happend : ∀ d ∈ st.1 ++ [pyStrip st.2], d.length ≤ max N M + ov + 1 := by
    intro d hd
    rcases List.mem_append.1 hd with h | h
    · exact h1 d h
    · rw [List.mem_singleton.1 h]
      have := pyStrip_length_le st.2
      omega
  unfold word_split_step
  dsimp only
  split_ifs with hover hne hemp
  · exact ⟨happend, by dsimp only; omega⟩
  · exact ⟨h1, by dsimp only; omega⟩
  · exact ⟨h1, by dsimp only; omega⟩
  · refine ⟨h1, ?_⟩
    dsimp only
    simp only [List.length_append, List.length_cons, List.length_nil]
    omega

theorem chunk_step_preserve (N M ov : Nat) (hov : 1 ≤ ov)
    (st : List PyStr × PyStr) (sentence : PyStr)
    (hs : sentence.length ≤ M)
    (h1 : ∀ d ∈ st.1, d.length ≤ max N M + ov + 1)
    (h2 : st.2.length ≤ max N M + ov + 1) :
    (∀ d ∈ (chunk_step N ov st sentence).1, d.length ≤ max N M + ov + 1) ∧
      (chunk_step N ov st sentence).2.length ≤ max N M + ov + 1 := by
  have hKN : N ≤ max N M := le_max_left N M
  have hKM : M ≤ max N M := le_max_right N M
  have hstrip : (pyStrip st.2).length ≤ max N M + ov + 1 :=
    (pyStrip_length_le st.2).trans h2
  have happend : ∀ d ∈ st.1 ++ [pyStrip st.2], d.length ≤ max N M + ov + 1 := by
    intro d hd
    rcases List.mem_append.1 hd with h | h
    · exact h1 d h
    · rw [List.mem_singleton.1 h]; exact hstrip
  unfold chunk_step
  dsimp only
  split_ifs with hover hne hlap hlong hemp
  · -- overflow, current nonempty, current longer than overlap: glue overlap suffix
    refine ⟨happend, ?_⟩
    dsimp only
    simp only [List.length_append, List.length_cons, List.length_nil]
    have := pySliceFromNeg_length_le st.2 ov hov
    omega
  · -- overflow, current nonempty, current fits in overlap: restart with sentence
    exact ⟨happend, by dsimp only; omega⟩
  · -- overflow, current empty, long sentence: word-level packing
    have hinner :
        (∀ d ∈ ((pySplitWs sentence).foldl (word_split_step N) (st.1, [])).1,
            d.length ≤ max N M + ov + 1) ∧
          ((pySplitWs sentence).foldl (word_split_step N) (st.1, [])).2.length ≤ max N M := by
      refine foldl_preserve (P := fun z => (∀ d ∈ z.1, d.length ≤ max N M + ov + 1) ∧
          z.2.length ≤ max N M) (Q := fun w => w.length ≤ M)
        (word_split_step N) ?_ (pySplitWs sentence) ?_ (st.1, []) ⟨h1, by simp⟩
      · intro z w hz hw
        exact word_split_step_preserve N M ov z w hw hz.1 hz.2
      · intro w hw
        exact (mem_pySplitWs_length sentence w hw).trans hs
    exact ⟨hinner.1, hinner.2.trans (by omega)⟩
  · -- overflow, current empty, sentence fits: restart with sentence
    exact ⟨h1, by dsimp only; omega⟩
  · -- no overflow, current empty: start with sentence
    exact ⟨h1, by dsimp only; omega⟩
  · -- no overflow: extend the current chunk
    refine ⟨h1, ?_⟩
    dsimp only
    simp only [List.length_append, List.length_cons, List.length_nil]
    omega

/-! ### Claim theorems -/

/-- C4 counterexample: on the input `"abcdefgh. ijklmnop."` with
`chunk_size = 10`, `overlap = 5`, `chunk_text` emits a chunk longer than 10
characters (the overlap-seeded chunk `"defgh ijklmnop"`, length 14) although
every tokenized sentence and every whitespace-separated word of the input has
length at most 10, so the exception for oversized atomic units does not apply:
the claim that every chunk's length is at most `chunk_size` is false. -/
theorem C4_counterexample :
    ((chunk_text c4Text 10 5).any (fun c => decide (10 < c.length))) = true ∧
    ((tokenize_sentences c4Text).all (fun s => decide (s.length ≤ 10))) = true ∧
    ((pySplitWs c4Text).all (fun w => decide (w.length ≤ 10))) = true := by decide

/-- C4 (amended): for every input text, `chunk_size = N` and `overlap ≥ 1`,
every string returned by `TextProcessor.chunk_text` has length at most
`max N M + overlap + 1`, where `M` is the length of the longest atomic
sentence of the text (so a single atomic sentence or word exceeding `N` is
never truncated, but a chunk may exceed `N` by up to `overlap + 1` characters
because the overlap suffix of the previous chunk plus a space is prepended to
the next sentence).  For `overlap = 0` no such bound holds: the Python slice
`current_chunk[-0:]` is the whole chunk, so chunks can grow without bound. -/
theorem C4_chunk_length_bound (text : PyStr) (chunkSize overlap : Nat)
    (hov : 1 ≤ overlap) :
    ∀ c ∈ chunk_text text chunkSize overlap,
      c.length ≤ max chunkSize (max_sentence_length text) + overlap + 1 := by
  intro c hc
  set M := max_sentence_length text with hM
  set st := (tokenize_sentences text).foldl (chunk_step chunkSize overlap) ([], []) with hst
  have hfold :
      (∀ d ∈ st.1, d.length ≤ max chunkSize M + overlap + 1) ∧
        st.2.length ≤ max chunkSize M + overlap + 1 := by
    rw [hst]
    refine foldl_preserve
      (P := fun z => (∀ d ∈ z.1, d.length ≤ max chunkSize M + overlap + 1) ∧
        z.2.length ≤ max chunkSize M + overlap + 1)
      (Q := fun s => s.length ≤ M)
      (chunk_step chunkSize overlap) ?_ (tokenize_sentences text) ?_ ([], []) ⟨by simp, by simp⟩
    · intro z s hz hs
      exact chunk_step_preserve chunkSize M overlap hov z s hs hz.1 hz.2
    · exact sentence_le_max_sentence_length text
  unfold chunk_text at hc
  dsimp only at hc
  rw [← hst] at hc
  split_ifs at hc with hnil hshort hcur
  · simp at hc
  · rw [List.mem_singleton.1 hc]
    have := le_max_left chunkSize M
    omega
  · have hmem := (List.mem_filter.1 hc).1
    rcases List.mem_append.1 hmem with h | h
    · exact hfold.1 c h
    · rw [List.mem_singleton.1 h]
      exact (pyStrip_length_le st.2).trans hfold.2
  · exact hfold.1 c (List.mem_filter.1 hc).1

/-- C4 witness: the amended bound instantiated on the counterexample input
(`N = 10`, `overlap = 5`, longest sentence length 8): the oversized chunk
`"defgh ijklmnop"` is indeed within `max 10 8 + 5 + 1 = 16`. -/
theorem C4_chunk_length_bound_witness :
    (pstr "defgh ijklmnop").length ≤ 16 := by
  have h := C4_chunk_length_bound c4Text 10 5 (by decide) (pstr "defgh ijklmnop") (by decide)
  have hmax : max 10 (max_sentence_length c4Text) + 5 + 1 = 16 := by decide
  omega

theorem toNat_ofNat_valid (n : Nat) (h : n.isValidChar) : (Char.ofNat n).toNat = n := by
  unfold Char.ofNat
  rw [dif_pos h]
  unfold Char.ofNatAux Char.toNat
  simp [UInt32.toNat, BitVec.toNat_ofNatLt]

theorem mem_collapseRunsAux (p : Char → Bool) (r : Char) :
    ∀ (s : PyStr) (b : Bool) (c : Char), c ∈ collapseRunsAux p r b s →
      c = r ∨ (c ∈ s ∧ p c = false) := by
  intro s
  induction s with
  | nil => intro b c hc; simp [collapseRunsAux] at hc
  | cons d t ih =>
    intro b c hc
    unfold collapseRunsAux at hc
    split_ifs at hc with hd hb
    · rcases ih true c hc with h | ⟨h1, h2⟩
      · exact Or.inl h
      · exact Or.inr ⟨List.mem_cons_of_mem d h1, h2⟩
    · rcases List.mem_cons.1 hc with h | h
      · exact Or.inl h
      · rcases ih true c h with h' | ⟨h1, h2⟩
        · exact Or.inl h'
        · exact Or.inr ⟨List.mem_cons_of_mem d h1, h2⟩
    · rcases List.mem_cons.1 hc with h | h
      · subst h; exact Or.inr ⟨List.mem_cons_self _ _, by simpa using hd⟩
      · rcases ih false c h with h' | ⟨h1, h2⟩
        · exact Or.inl h'
        · exact Or.inr ⟨List.mem_cons_of_mem d h1, h2⟩

theorem pyStrip_subset (s : PyStr) : pyStrip s ⊆ s := by
  unfold pyStrip
  intro c hc
  rw [List.mem_reverse] at hc
  have h1 : c ∈ (s.dropWhile isPySpace).reverse := (List.dropWhile_sublist _).subset hc
  rw [List.mem_reverse] at h1
  exact (List.dropWhile_sublist _).subset h1

theorem dropWhile_eq_self_of_not (p : Char → Bool) (s : PyStr)
    (h : ∀ c ∈ s, p c = false) : s.dropWhile p = s := by
  cases s with
  | nil => rfl
  | cons c t =>
    rw [List.dropWhile_cons]
    rw [h c (List.mem_cons_self _ _)]
    simp

theorem pyStrip_eq_self (s : PyStr) (h : ∀ c ∈ s, isPySpace c = false) :
    pyStrip s = s := by
  unfold pyStrip
  rw [dropWhile_eq_self_of_not _ _ h]
  rw [dropWhile_eq_self_of_not _ _ (fun c hc => h c (List.mem_reverse.1 hc))]
  exact List.reverse_reverse s

theorem collapseRunsAux_eq_self (p : Char → Bool) (r : Char) :
    ∀ (s : PyStr), (∀ c ∈ s, p c = false) → collapseRunsAux p r false s = s := by
  intro s
  induction s with
  | nil => intro _; rfl
  | cons d t ih =>
    intro h
    unfold collapseRunsAux
    rw [if_neg (by rw [h d (List.mem_cons_self _ _)]; simp)]
    rw [ih (fun c hc => h c (List.mem_cons_of_mem d hc))]

theorem isAsciiLetter_pyLowerChar_range (c0 : Char)
    (h : isAsciiLetter (pyLowerChar c0) = true) :
    97 ≤ (pyLowerChar c0).toNat ∧ (pyLowerChar c0).toNat ≤ 122 := by
  unfold pyLowerChar at h ⊢
  split_ifs at h ⊢ with h1 h2
  · have hv : (c0.toNat + 32).isValidChar := by
      unfold Nat.isValidChar
      omega
    rw [toNat_ofNat_valid _ hv]
    omega
  · have hv : (c0.toNat + 32).isValidChar := by
      unfold Nat.isValidChar
      omega
    simp only [isAsciiLetter, Bool.or_eq_true, Bool.and_eq_true, decide_eq_true_eq] at h
    rw [toNat_ofNat_valid _ hv] at h ⊢
    omega
  · simp only [isAsciiLetter, Bool.or_eq_true, Bool.and_eq_true, decide_eq_true_eq] at h
    omega

theorem normalize_name_chars (s : PyStr) :
    ∀ c ∈ normalize_name s, (97 ≤ c.toNat ∧ c.toNat ≤ 122) ∨ c = '_' := by
  intro c hc
  unfold normalize_name at hc
  rcases mem_collapseRunsAux isPySpace '_' _ false c hc with h | ⟨h1, h2⟩
  · exact Or.inr h
  · have h3 := pyStrip_subset _ h1
    rw [List.mem_filter] at h3
    obtain ⟨h4, h5⟩ := h3
    have h6 : isAsciiLetter c = true := by
      simp only [Bool.or_eq_true] at h5
      rcases h5 with h | h
      · exact h
      · rw [h] at h2; cases h2
    obtain ⟨c0, _, hc0⟩ := List.mem_map.1 h4
    subst hc0
    exact Or.inl (isAsciiLetter_pyLowerChar_range c0 h6)

theorem pyLowerChar_fixed (c : Char) (h : (97 ≤ c.toNat ∧ c.toNat ≤ 122) ∨ c = '_') :
    pyLowerChar c = c := by
  unfold pyLowerChar
  rcases h with h | h
  · rw [if_neg (by omega), if_neg (by omega)]
  · subst h
    rw [if_neg (by decide), if_neg (by decide)]

theorem isPySpace_toNat (c : Char) (h : isPySpace c = true) :
    c.toNat = 32 ∨ c.toNat = 9 ∨ c.toNat = 10 ∨ c.toNat = 13 ∨
      c.toNat = 11 ∨ c.toNat = 12 := by
  simp only [isPySpace, Bool.or_eq_true, beq_iff_eq] at h
  rcases h with ((((h | h) | h) | h) | h) | h <;> subst h <;> decide

theorem char_not_space (c : Char) (h : (97 ≤ c.toNat ∧ c.toNat ≤ 122) ∨ c = '_') :
    isPySpace c = false := by
  by_cases hsp : isPySpace c = true
  · exfalso
    have hto := isPySpace_toNat c hsp
    rcases h with h | h
    · omega
    · subst h; revert hto; decide
  · simpa using hsp

theorem normalize_name_on_normalized (s : PyStr)
    (h : ∀ c ∈ s, (97 ≤ c.toNat ∧ c.toNat ≤ 122) ∨ c = '_') :
    normalize_name s = s.filter (fun c => decide (c ≠ '_')) := by
  unfold normalize_name
  have hlow : pyLower s = s := by
    unfold pyLower
    rw [List.map_congr_left (fun c hc => pyLowerChar_fixed c (h c hc))]
    exact List.map_id s
  rw [hlow]
  have hfc : s.filter (fun c => isAsciiLetter c || isPySpace c) =
      s.filter (fun c => decide (c ≠ '_')) := by
    apply List.filter_congr
    intro c hc
    rcases h c hc with h' | h'
    · have : isAsciiLetter c = true := by
        simp only [isAsciiLetter, Bool.or_eq_true, Bool.and_eq_true, decide_eq_true_eq]
        omega
      rw [this]
      have : c ≠ '_' := by intro he; rw [he] at h'; revert h'; decide
      simp [this]
    · subst h'
      decide
  rw [hfc]
  have hmem : ∀ c ∈ s.filter (fun c => decide (c ≠ '_')),
      (97 ≤ c.toNat ∧ c.toNat ≤ 122) ∨ c = '_' :=
    fun c hc => h c (List.mem_filter.1 hc).1
  have hnosp : ∀ c ∈ s.filter (fun c => decide (c ≠ '_')), isPySpace c = false :=
    fun c hc => char_not_space c (hmem c hc)
  rw [pyStrip_eq_self _ hnosp]
  exact collapseRunsAux_eq_self _ _ _ hnosp

/-- C5 counterexample: normalization is not idempotent.  On the two-word name
`"Jean Dupont"` a single normalization yields `"jean_dupont"`, but normalizing
that again strips the underscore (which is neither a letter nor whitespace) and
yields `"jeandupont"`, a different string. -/
theorem C5_counterexample :
    normalize_name (normalize_name (pstr "Jean Dupont")) ≠
      normalize_name (pstr "Jean Dupont") ∧
    normalize_name (pstr "Jean Dupont") = pstr "jean_dupont" ∧
    normalize_name (normalize_name (pstr "Jean Dupont")) = pstr "jeandupont" := by
  decide

/-- C5 (amended): normalization is deterministic (it is a pure function of its
input), but idempotent only on inputs whose normal form contains no `_`, i.e.
single-word names.  In general, renormalizing a normalized name deletes
exactly the underscores the first normalization inserted between words. -/
theorem C5_normalize_renormalize (s : PyStr) :
    normalize_name (normalize_name s) =
      (normalize_name s).filter (fun c => decide (c ≠ '_')) ∧
    ('_' ∉ normalize_name s →
      normalize_name (normalize_name s) = normalize_name s) := by
  have hchars := normalize_name_chars s
  constructor
  · exact normalize_name_on_normalized _ hchars
  · intro hno
    rw [normalize_name_on_normalized _ hchars]
    apply List.filter_eq_self.2
    intro c hc
    simp only [decide_eq_true_eq]
    intro he
    rw [he] at hc
    exact hno hc

/-- C5 witness: on the single-word name `"Dupont"` (normal form without
underscores) normalization is idempotent. -/
theorem C5_normalize_renormalize_witness :
    normalize_name (normalize_name (pstr "Dupont")) = normalize_name (pstr "Dupont") :=
  (C5_normalize_renormalize (pstr "Dupont")).2 (by decide)

/-- C2: `_is_same_person` returns `True` whenever some whitespace-separated
word of the target longer than 2 characters occurs case-insensitively as a
substring of the stored `person_name`; so chunks of a distinct person sharing
a family name are accepted (witness: target `"Alice Dupont"` against stored
name `"Jean Dupont"`). -/
theorem C2_word_substring_accepts (metadata : ChunkMeta) (target part : PyStr)
    (hmem : part ∈ pySplitWs target) (hlen : part.length > 2)
    (hsub : pyContains (pyLower metadata.person_name) (pyLower part) = true) :
    _is_same_person metadata target = true := by
  unfold _is_same_person
  split_ifs with h
  · rfl
  · dsimp only
    have hD : (pySplitWs target).any (fun p =>
        decide (p.length > 2) && pyContains (pyLower metadata.person_name) (pyLower p)) = true :=
      List.any_eq_true.2 ⟨part, hmem, by simp [hlen, hsub]⟩
    rw [hD]
    simp

/-- C2 witness: the predicate accepts the cross-person pair: stored person
`"Jean Dupont"`, target `"Alice Dupont"` — two distinct identified people
(different normalized names) matched through the shared surname. -/
theorem C2_word_substring_accepts_witness :
    _is_same_person
        { person_name := pstr "Jean Dupont",
          person_name_normalized := pstr "jean_dupont" }
        (pstr "Alice Dupont") = true ∧
    normalize_name (pstr "Alice Dupont") ≠ normalize_name (pstr "Jean Dupont") := by
  constructor
  · exact C2_word_substring_accepts _ _ (pstr "Dupont") (by decide) (by decide) (by decide)
  · decide

theorem py_max_first_split (xs : List (PyStr × Nat)) :
    ∀ x : PyStr × Nat,
      ∃ l1 l2, x :: xs = l1 ++ py_max_first x xs :: l2 ∧
        (∀ y ∈ l1, y.2 < (py_max_first x xs).2) ∧
        (∀ y ∈ l2, y.2 ≤ (py_max_first x xs).2) := by
  induction xs with
  | nil =>
    intro x
    exact ⟨[], [], rfl, by simp, by simp⟩
  | cons y ys ih =>
    intro x
    by_cases hy : y.2 > x.2
    · have hstep : py_max_first x (y :: ys) = py_max_first y ys := by
        unfold py_max_first
        rw [List.foldl_cons, if_pos hy]
      obtain ⟨l1, l2, heq, hlt, hle⟩ := ih y
      have hy_mem : y ∈ l1 ++ py_max_first y ys :: l2 := by
        rw [← heq]; exact List.mem_cons_self _ _
      have hy_le : y.2 ≤ (py_max_first y ys).2 := by
        rcases List.mem_append.1 hy_mem with h | h
        · exact le_of_lt (hlt y h)
        · rcases List.mem_cons.1 h with h | h
          · exact le_of_eq (congrArg Prod.snd h)
          · exact hle y h
      refine ⟨x :: l1, l2, ?_, ?_, ?_⟩
      · rw [hstep, List.cons_append, ← heq]
      · intro z hz
        rcases List.mem_cons.1 hz with h | h
        · rw [h, hstep]; omega
        · rw [hstep]; exact hlt z h
      · rw [hstep]; exact hle
    · have hstep : py_max_first x (y :: ys) = py_max_first x ys := by
        unfold py_max_first
        rw [List.foldl_cons, if_neg hy]
      obtain ⟨l1, l2, heq, hlt, hle⟩ := ih x
      cases l1 with
      | nil =>
        simp only [List.nil_append] at heq
        injection heq with hx hys
        refine ⟨[], y :: l2, ?_, by simp, ?_⟩
        · rw [hstep, List.nil_append, ← hx, ← hys]
        · intro z hz
          rcases List.mem_cons.1 hz with h | h
          · rw [h, hstep, ← hx]; omega
          · rw [hstep]; exact hle z h
      | cons a l1t =>
        simp only [List.cons_append] at heq
        injection heq with hx hys
        refine ⟨x :: y :: l1t, l2, ?_, ?_, ?_⟩
        · rw [hstep]
          simp only [List.cons_append]
          rw [← hys]
        · intro z hz
          have hxlt : x.2 < (py_max_first x ys).2 := by
            have := hlt a (List.mem_cons_self _ _)
            rw [← hx] at this
            exact this
          rcases List.mem_cons.1 hz with h | h
          · rw [h, hstep]; exact hxlt
          · rcases List.mem_cons.1 h with h' | h'
            · rw [h', hstep]; omega
            · rw [hstep]
              exact hlt z (List.mem_cons_of_mem a h')
        · rw [hstep]; exact hle

/-- C9 counterexample: on the text `"formation stage"` the categories
`education` (keyword `formation`) and `experience` (keyword `stage`) tie with
one hit each, yet `_identify_chunk_type` returns `"education"` (the first key
of the dict reaching the maximal count under Python `max`), not `"general"` as
the claim states for ties. -/
theorem C9_counterexample :
    type_scores (pstr "formation stage") =
      [(pstr "education", 1), (pstr "experience", 1)] ∧
    _identify_chunk_type (pstr "formation stage") = pstr "education" ∧
    _identify_chunk_type (pstr "formation stage") ≠ pstr "general" := by
  refine ⟨by decide, by decide, by decide⟩

/-- C9 (amended): `_identify_chunk_type` scores each fixed category by counting
keyword-list hits in the lowercased chunk text and returns `"general"` only
when no category matches at all; otherwise it returns the category with the
highest hit count, breaking ties in favor of the earliest category in the
fixed order education, experience, project, skills, certification, contact,
languages, personal_info (Python `max` keeps the first maximal key).  When a
section title is known, the section→type mapping is preferred and content
scoring is the fallback. -/
theorem C9_chunk_type_first_max (text : PyStr) :
    (type_scores text = [] ↔
      ∀ p ∈ type_patterns, type_score (pyLower text) p.2 = 0) ∧
    (type_scores text = [] → _identify_chunk_type text = pstr "general") ∧
    (type_scores text ≠ [] →
      ∃ l1 m l2, type_scores text = l1 ++ m :: l2 ∧
        _identify_chunk_type text = m.1 ∧ 0 < m.2 ∧
        (∀ y ∈ l1, y.2 < m.2) ∧ (∀ y ∈ l2, y.2 ≤ m.2)) ∧
    (∀ st t2, (∀ kv ∈ section_mapping, pyContains (pyLower st) kv.1 = false) →
      _identify_chunk_type_from_section st t2 = _identify_chunk_type t2) := by
  refine ⟨?_, ?_, ?_, ?_⟩
  · constructor
    · intro hnil p hp
      by_contra hne
      have hmem : (p.1, type_score (pyLower text) p.2) ∈ type_scores text := by
        unfold type_scores
        rw [List.mem_filter]
        refine ⟨List.mem_map.2 ⟨p, hp, rfl⟩, by simp; omega⟩
      rw [hnil] at hmem
      exact absurd hmem (List.not_mem_nil _)
    · intro hall
      unfold type_scores
      rw [List.filter_eq_nil_iff]
      intro p hp
      obtain ⟨q, hq, hpq⟩ := List.mem_map.1 hp
      rw [← hpq]
      simp [hall q hq]
  · intro hnil
    simp only [_identify_chunk_type, hnil]
  · intro hne
    rcases hts : type_scores text with _ | ⟨x, xs⟩
    · exact absurd hts hne
    · obtain ⟨l1, l2, heq, hlt, hle⟩ := py_max_first_split xs x
      refine ⟨l1, py_max_first x xs, l2, heq, ?_, ?_, hlt, hle⟩
      · simp only [_identify_chunk_type, hts]
      · have hmem : py_max_first x xs ∈ x :: xs := by
          rw [heq]
          exact List.mem_append.2 (Or.inr (List.mem_cons_self _ _))
        have : py_max_first x xs ∈ type_scores text := by rw [hts]; exact hmem
        have := (List.mem_filter.1 this).2
        simpa using this
  · intro st t2 hall
    have hnone : section_mapping.find? (fun kv => pyContains (pyLower st) kv.1) = none :=
      List.find?_eq_none.2 (by intro kv hkv; simp [hall kv hkv])
    simp only [_identify_chunk_type_from_section, hnone]

/-- C9 witness: on a text matching no category keyword the classifier returns
`"general"`, and on a section title matching no mapping key the section-based
classifier falls back to the content-based one. -/
theorem C9_chunk_type_first_max_witness :
    _identify_chunk_type (pstr "zzz qqq") = pstr "general" := by
  have h := (C9_chunk_type_first_max (pstr "zzz qqq")).2.1
  exact h (by decide)

theorem mem_insertDescBy {α : Type _} (key : α → ℚ) (a : α) :
    ∀ (l : List α) (x : α), x ∈ insertDescBy key a l → x = a ∨ x ∈ l := by
  intro l
  induction l with
  | nil =>
    intro x hx
    simp only [insertDescBy, List.mem_singleton] at hx
    exact Or.inl hx
  | cons y ys ih =>
    intro x hx
    unfold insertDescBy at hx
    split_ifs at hx with hk
    · rcases List.mem_cons.1 hx with h | h
      · exact Or.inl h
      · exact Or.inr h
    · rcases List.mem_cons.1 hx with h | h
      · exact Or.inr (by rw [h]; exact List.mem_cons_self _ _)
      · rcases ih x h with h' | h'
        · exact Or.inl h'
        · exact Or.inr (List.mem_cons_of_mem _ h')

theorem mem_sortDescBy {α : Type _} (key : α → ℚ) (l : List α) :
    ∀ x ∈ sortDescBy key l, x ∈ l := by
  unfold sortDescBy
  refine foldl_preserve (P := fun acc => ∀ x ∈ acc, x ∈ l) (Q := fun a => a ∈ l)
    (fun acc x => insertDescBy key x acc) ?_ l (fun a ha => ha) [] (by simp)
  intro s a hs ha x hx
  rcases mem_insertDescBy key a s x hx with h | h
  · rw [h]; exact ha
  · exact hs x h

theorem length_insertDescBy {α : Type _} (key : α → ℚ) (a : α) :
    ∀ l : List α, (insertDescBy key a l).length = l.length + 1 := by
  intro l
  induction l with
  | nil => rfl
  | cons y ys ih =>
    unfold insertDescBy
    split_ifs with hk
    · simp
    · simp only [List.length_cons, ih]

theorem length_sortDescBy {α : Type _} (key : α → ℚ) (l : List α) :
    (sortDescBy key l).length = l.length := by
  unfold sortDescBy
  suffices h : ∀ acc : List α,
      (l.foldl (fun acc x => insertDescBy key x acc) acc).length = acc.length + l.length by
    simpa using h []
  induction l with
  | nil => intro acc; simp
  | cons y ys ih =>
    intro acc
    simp only [List.foldl_cons, ih, length_insertDescBy, List.length_cons]
    omega

theorem validate_isolation_same_person (results : List SearchResult) (t : PyStr)
    (ht : t ≠ []) :
    ∀ r ∈ _validate_isolation results t, _is_same_person r.metadata t = true := by
  intro r hr
  unfold _validate_isolation at hr
  rw [if_neg ht] at hr
  obtain ⟨hmem, hval⟩ := List.mem_filter.1 hr
  obtain ⟨r0, _, hr0⟩ := List.mem_map.1 hmem
  rw [← hr0] at hval ⊢
  simpa using hval

theorem assoc_find_mem (m : List (PyStr × SearchResult)) (k : PyStr) (v : SearchResult)
    (h : assoc_find m k = some v) : ∃ kv ∈ m, kv.2 = v := by
  unfold assoc_find at h
  rcases hf : m.find? (fun kv => kv.1 == k) with _ | kv
  · rw [hf] at h; cases h
  · rw [hf] at h
    injection h with h
    exact ⟨kv, List.mem_of_find?_eq_some hf, h⟩

theorem merge_step_none (m : List (PyStr × SearchResult)) (r : SearchResult)
    (h : assoc_find m (merge_key r) = none) :
    merge_step m r = m ++ [(merge_key r, r)] := by
  unfold merge_step
  dsimp only
  rw [h]

theorem merge_step_some (m : List (PyStr × SearchResult)) (r : SearchResult)
    (e : SearchResult) (h : assoc_find m (merge_key r) = some e) :
    ∃ e2, merge_step m r = assoc_update m (merge_key r) e2 ∧ e2.metadata = e.metadata := by
  unfold merge_step
  dsimp only
  rw [h]
  refine ⟨_, rfl, ?_⟩
  dsimp only
  split <;> rfl

theorem merge_metadata (l : List SearchResult) :
    ∀ r ∈ _merge_and_deduplicate_isolated_results l, ∃ r0 ∈ l, r.metadata = r0.metadata := by
  intro r hr
  unfold _merge_and_deduplicate_isolated_results at hr
  have hr' := mem_sortDescBy _ _ r hr
  obtain ⟨kv, hkv, hkv2⟩ := List.mem_map.1 hr'
  have hinv : ∀ kv ∈ l.foldl merge_step [], ∃ r0 ∈ l, kv.2.metadata = r0.metadata := by
    refine foldl_preserve (P := fun m => ∀ kv ∈ m, ∃ r0 ∈ l, kv.2.metadata = r0.metadata)
      (Q := fun a => a ∈ l) merge_step ?_ l (fun a ha => ha) [] (by simp)
    intro m a hm ha kv hkv
    rcases hfind : assoc_find m (merge_key a) with _ | e
    · rw [merge_step_none m a hfind] at hkv
      rcases List.mem_append.1 hkv with h | h
      · exact hm kv h
      · rw [List.mem_singleton.1 h]
        exact ⟨a, ha, rfl⟩
    · obtain ⟨e2, heq, hmeta⟩ := merge_step_some m a e hfind
      rw [heq] at hkv
      unfold assoc_update at hkv
      obtain ⟨kv0, hkv0, hkv0eq⟩ := List.mem_map.1 hkv
      by_cases hk : (kv0.1 == merge_key a) = true
      · rw [if_pos hk] at hkv0eq
        obtain ⟨kv1, hkv1, hkv1eq⟩ := assoc_find_mem m (merge_key a) e hfind
        obtain ⟨r0, hr0, hr0meta⟩ := hm kv1 hkv1
        refine ⟨r0, hr0, ?_⟩
        rw [← hkv0eq]
        dsimp only
        rw [hmeta, ← hkv1eq]
        exact hr0meta
      · rw [if_neg hk] at hkv0eq
        rw [← hkv0eq]
        exact hm kv0 hkv0
  obtain ⟨r0, hr0, hmeta⟩ := hinv kv hkv
  rw [← hkv2]
  exact ⟨r0, hr0, hmeta⟩

theorem merged_validated_same_person (l : List SearchResult) (t : PyStr) (ht : t ≠ []) :
    ∀ r ∈ _merge_and_deduplicate_isolated_results (_validate_isolation l t),
      _is_same_person r.metadata t = true := by
  intro r hr
  obtain ⟨r0, hr0, hmeta⟩ := merge_metadata _ r hr
  rw [hmeta]
  exact validate_isolation_same_person l t ht r0 hr0

theorem pyClamp01_bounds (x : ℚ) :
    0 ≤ pyMaxQ 0 (pyMinQ 1 x) ∧ pyMaxQ 0 (pyMinQ 1 x) ≤ 1 := by
  unfold pyMaxQ pyMinQ
  split_ifs <;> constructor <;> linarith

theorem keyword_match_counts_nil_left (qw : List PyStr) (doc : PyStr) (meta : ChunkMeta) :
    (keyword_match_counts [] qw doc meta).1 = 0 := rfl

theorem keyword_match_counts_nil_right (qk : List PyStr) (doc : PyStr) (meta : ChunkMeta) :
    (keyword_match_counts qk [] doc meta).2 = 0 := rfl

theorem keyword_search_step_preserve (qk qw : List PyStr) (t : PyStr)
    (acc : List SearchResult) (dm : PyStr × ChunkMeta)
    (hacc : ∀ r ∈ acc, ∃ k : ℚ, 0 < k ∧ k ≤ 1 ∧
      k = pyMinQ 1 (((r.keyword_matches : ℚ) + (r.word_matches : ℚ)) /
        ((qk.length : ℚ) + (qw.length : ℚ))) ∧
      r.similarity_score = k * 0.8 ∧ r.distance = 1 - k) :
    ∀ r ∈ keyword_search_step qk qw t acc dm, ∃ k : ℚ, 0 < k ∧ k ≤ 1 ∧
      k = pyMinQ 1 (((r.keyword_matches : ℚ) + (r.word_matches : ℚ)) /
        ((qk.length : ℚ) + (qw.length : ℚ))) ∧
      r.similarity_score = k * 0.8 ∧ r.distance = 1 - k := by
  intro r hr
  unfold keyword_search_step at hr
  dsimp only at hr
  split_ifs at hr with hskip htotal
  · exact hacc r hr
  · rcases List.mem_append.1 hr with h | h
    · exact hacc r h
    · set counts := keyword_match_counts qk qw dm.1 dm.2 with hcounts
      have hne : qk ≠ [] ∨ qw ≠ [] := by
        by_contra hboth
        push_neg at hboth
        obtain ⟨h1, h2⟩ := hboth
        have hc1 : counts.1 = 0 := by
          rw [hcounts, h1]
          exact keyword_match_counts_nil_left qw dm.1 dm.2
        have hc2 : counts.2 = 0 := by
          rw [hcounts, h2]
          exact keyword_match_counts_nil_right qk dm.1 dm.2
        omega
      have hlen : 1 ≤ qk.length + qw.length := by
        rcases hne with h | h
        · have := List.length_pos.2 h; omega
        · have := List.length_pos.2 h; omega
      have hdenom : (1 : ℚ) ≤ (qk.length : ℚ) + (qw.length : ℚ) := by
        exact_mod_cast hlen
      have hq : (0 : ℚ) < ((counts.1 + counts.2 : Nat) : ℚ) /
          ((qk.length : ℚ) + (qw.length : ℚ)) := by
        apply div_pos
        · exact_mod_cast htotal
        · linarith
      rw [List.mem_singleton.1 h]
      refine ⟨pyMinQ 1 (((counts.1 + counts.2 : Nat) : ℚ) /
        ((qk.length : ℚ) + (qw.length : ℚ))), ?_, ?_, ?_, rfl, rfl⟩
      · unfold pyMinQ
        split_ifs with h2
        · exact hq
        · norm_num
      · unfold pyMinQ
        split_ifs with h2
        · linarith
        · norm_num
      · show pyMinQ 1 _ = pyMinQ 1 _
        congr 1
        push_cast
        ring
  · exact hacc r hr

theorem keyword_search_relation (query t : PyStr) (top_k : Nat)
    (store_docs : List (PyStr × ChunkMeta)) :
    ∀ r ∈ _keyword_search_with_isolation query t top_k store_docs,
      ∃ k : ℚ, 0 < k ∧ k ≤ 1 ∧
        k = pyMinQ 1 (((r.keyword_matches : ℚ) + (r.word_matches : ℚ)) /
          (((query_keywords_of query).length : ℚ) + ((query_words_of query).length : ℚ))) ∧
        r.similarity_score = k * 0.8 ∧ r.distance = 1 - k := by
  intro r hr
  unfold _keyword_search_with_isolation at hr
  dsimp only at hr
  have h1 := List.take_subset _ _ hr
  have h2 := mem_sortDescBy _ _ r h1
  have hfold : ∀ x ∈ store_docs.foldl
      (keyword_search_step (query_keywords_of query) (query_words_of query) t) [],
      ∃ k : ℚ, 0 < k ∧ k ≤ 1 ∧
        k = pyMinQ 1 (((x.keyword_matches : ℚ) + (x.word_matches : ℚ)) /
          (((query_keywords_of query).length : ℚ) + ((query_words_of query).length : ℚ))) ∧
        x.similarity_score = k * 0.8 ∧ x.distance = 1 - k := by
    refine foldl_preserve
      (P := fun acc => ∀ x ∈ acc, ∃ k : ℚ, 0 < k ∧ k ≤ 1 ∧
        k = pyMinQ 1 (((x.keyword_matches : ℚ) + (x.word_matches : ℚ)) /
          (((query_keywords_of query).length : ℚ) + ((query_words_of query).length : ℚ))) ∧
        x.similarity_score = k * 0.8 ∧ x.distance = 1 - k)
      (Q := fun _ => True)
      (keyword_search_step (query_keywords_of query) (query_words_of query) t)
      ?_ store_docs (fun _ _ => trivial) [] ?_
    · intro s a hs _
      exact keyword_search_step_preserve _ _ t s a hs
    · intro x hx
      exact absurd hx (List.not_mem_nil x)
  exact hfold r h2

/-- C10: every keyword-search result has
`similarity_score = 0.8 × min(1, m)` and `distance = 1 − min(1, m)` with `m`
the total match count divided by the number of query keywords plus query
words; hence `similarity_score = 0.8 × (1 − distance) ≤ 0.8`, and the
semantic-side relation `similarity = clamp(1 − distance, 0, 1)` (which holds
for every result of `_format_search_results`) fails on every keyword result. -/
theorem C10_keyword_vs_semantic_similarity :
    (∀ (query t : PyStr) (top_k : Nat) (store_docs : List (PyStr × ChunkMeta)),
      ∀ r ∈ _keyword_search_with_isolation query t top_k store_docs,
        r.similarity_score = 0.8 * pyMinQ 1
            (((r.keyword_matches : ℚ) + (r.word_matches : ℚ)) /
              (((query_keywords_of query).length : ℚ) +
                ((query_words_of query).length : ℚ))) ∧
        r.distance = 1 - pyMinQ 1
            (((r.keyword_matches : ℚ) + (r.word_matches : ℚ)) /
              (((query_keywords_of query).length : ℚ) +
                ((query_words_of query).length : ℚ))) ∧
        r.similarity_score = 0.8 * (1 - r.distance) ∧
        r.similarity_score ≤ 0.8 ∧
        r.similarity_score ≠ pyMaxQ 0 (pyMinQ 1 (1 - r.distance))) ∧
    (∀ (rows : List (PyStr × ChunkMeta × ℚ)), ∀ r ∈ _format_search_results rows,
      r.similarity_score = pyMaxQ 0 (pyMinQ 1 (1 - r.distance))) := by
  constructor
  · intro query t top_k store_docs r hr
    obtain ⟨k, hk0, hk1, hkdef, hsim, hdist⟩ :=
      keyword_search_relation query t top_k store_docs r hr
    have hback : (1 : ℚ) - r.distance = k := by rw [hdist]; ring
    have hminq : pyMinQ 1 k = k := by
      unfold pyMinQ
      split_ifs with h
      · rfl
      · exact (le_antisymm hk1 (not_lt.1 h)).symm
    have hmaxq : pyMaxQ 0 k = k := by
      unfold pyMaxQ
      split_ifs with h
      · rfl
      · exact absurd hk0 h
    refine ⟨?_, ?_, ?_, ?_, ?_⟩
    · rw [hsim, ← hkdef]; ring
    · rw [hdist, hkdef]
    · rw [hsim, hback]; ring
    · rw [hsim]; nlinarith
    · rw [hsim, hback, hminq, hmaxq]
      intro heq
      nlinarith
  · intro rows r hr
    obtain ⟨row, _, hrow⟩ := List.mem_map.1 hr
    rw [← hrow]

/-- C10 witness: on the query `"python"` against a store row whose keywords
contain `python`, the single keyword result satisfies
`similarity = 0.8 × (1 − distance) = 0.8` and differs from
`clamp(1 − distance) = 1`. -/
theorem C10_keyword_vs_semantic_similarity_witness :
    (_keyword_search_with_isolation (pstr "python") [] 5 c10Store).length = 1 ∧
    (_keyword_search_with_isolation (pstr "python") [] 5 c10Store).all
      (fun r => decide (r.similarity_score = 0.8 * (1 - r.distance) ∧
        r.similarity_score ≤ 0.8 ∧
        r.similarity_score ≠ pyMaxQ 0 (pyMinQ 1 (1 - r.distance)))) = true := by
  constructor
  · with_unfolding_all rfl
  · rw [List.all_eq_true]
    intro r hr
    have h := C10_keyword_vs_semantic_similarity.1 (pstr "python") [] 5 c10Store r hr
    exact decide_eq_true ⟨h.2.2.1, h.2.2.2.1, h.2.2.2.2⟩

theorem rerank_one_final_score (query t : PyStr) (r : SearchResult) :
    ∃ fs, (rerank_one query t r).final_score = some fs ∧ 0 ≤ fs ∧ fs ≤ 1 := by
  unfold rerank_one
  dsimp only
  exact ⟨_, rfl, (pyClamp01_bounds _).1, (pyClamp01_bounds _).2⟩

theorem rerank_one_metadata (query t : PyStr) (r : SearchResult) :
    (rerank_one query t r).metadata = r.metadata := rfl

/-- C8: every result processed by `_rerank_with_isolation_bonus` is assigned a
`final_score` within `[0.0, 1.0]`, for any base similarity, overlap scores,
isolation bonus, chunk-type bonus, multi-strategy bonus, section bonus and
length penalty, because the composite sum is clamped by
`max(0.0, min(1.0, final_score))`. -/
theorem C8_final_score_clamped (query t : PyStr) (results : List SearchResult) :
    ∀ r ∈ _rerank_with_isolation_bonus query results t,
      ∃ fs, r.final_score = some fs ∧ 0 ≤ fs ∧ fs ≤ 1 := by
  intro r hr
  unfold _rerank_with_isolation_bonus at hr
  have h1 := mem_sortDescBy _ _ r hr
  obtain ⟨r0, _, hr0⟩ := List.mem_map.1 h1
  rw [← hr0]
  exact rerank_one_final_score query t r0

/-- C8 witness: re-ranking an input whose base similarity is 5 (far outside
the unit interval) still yields a `final_score` inside `[0, 1]`. -/
theorem C8_final_score_clamped_witness :
    (_rerank_with_isolation_bonus (pstr "python") [c8Input] []).length = 1 ∧
    (_rerank_with_isolation_bonus (pstr "python") [c8Input] []).all
      (fun r => decide (0 ≤ r.final_score.getD 9 ∧ r.final_score.getD 9 ≤ 1)) = true := by
  constructor
  · with_unfolding_all rfl
  · rw [List.all_eq_true]
    intro r hr
    obtain ⟨fs, hfs, h0, h1⟩ := C8_final_score_clamped (pstr "python") [] [c8Input] r hr
    rw [hfs]
    exact decide_eq_true ⟨h0, h1⟩

/-- C1: for every call to `search_similar_documents` with a non-empty
`target_person`, every returned result's metadata satisfies
`_is_same_person(metadata, target_person)`: the post-search validation filters
every candidate of every strategy through the predicate, and merging,
re-ranking, thresholding and truncation never change a result's metadata nor
re-admit a dropped candidate — no chunk identified as a different person
appears, regardless of its similarity score. -/
theorem C1_isolation_property
    (semantic_rows : List (PyStr × ChunkMeta × ℚ)) (store_docs : List (PyStr × ChunkMeta))
    (query : PyStr) (top_k : Nat) (threshold : ℚ) (target_person : PyStr)
    (enable_reranking enable_hybrid_search collection_empty : Bool)
    (htarget : target_person ≠ []) :
    ∀ r ∈ search_similar_documents semantic_rows store_docs query top_k threshold
        target_person enable_reranking enable_hybrid_search collection_empty,
      _is_same_person r.metadata target_person = true := by
  intro r hr
  unfold search_similar_documents at hr
  dsimp only at hr
  split_ifs at hr
  all_goals
    (first
      | exact absurd hr (List.not_mem_nil r)
      | (have h1 := List.take_subset _ _ hr
         have h2 := (List.mem_filter.1 h1).1
         unfold _rerank_with_isolation_bonus at h2
         have h3 := mem_sortDescBy _ _ r h2
         obtain ⟨r0, hr0, hr0eq⟩ := List.mem_map.1 h3
         rw [← hr0eq, rerank_one_metadata]
         exact merged_validated_same_person _ target_person htarget r0 hr0)
      | (have h1 := List.take_subset _ _ hr
         have h2 := (List.mem_filter.1 h1).1
         exact merged_validated_same_person _ target_person htarget r h2))

/-- C1 witness: two topically identical chunks of Alice Dupont and Bob Martin,
Bob's strictly closer to the query embedding; with `target_person = "Alice
Dupont"` the search returns exactly one result and it satisfies the
person-identity predicate — Bob's higher-similarity chunk is excluded. -/
theorem C1_isolation_property_witness :
    (search_similar_documents c1Rows [] (pstr "q") 5 0 (pstr "Alice Dupont")
      false false false).length = 1 ∧
    (search_similar_documents c1Rows [] (pstr "q") 5 0 (pstr "Alice Dupont")
      false false false).all
      (fun r => _is_same_person r.metadata (pstr "Alice Dupont")) = true := by
  constructor
  · with_unfolding_all rfl
  · rw [List.all_eq_true]
    intro r hr
    exact C1_isolation_property c1Rows [] (pstr "q") 5 0 (pstr "Alice Dupont")
      false false false (by decide) r hr

/-- C6: given a non-empty raw result list (of length at most `top_k`, as
`search_similar_documents` guarantees), `_retrieve_relevant_documents` returns
the results at or above the primary threshold; if that keeps fewer than 2, it
refilters with the fallback threshold; if that is still empty it returns the
top 2 raw results by `similarity_score`; and the returned list never exceeds
`top_k` entries. -/
theorem C6_graceful_threshold_fallback (results : List SearchResult)
    (primary fallback : ℚ) (top_k : Nat)
    (hne : results ≠ []) (hlen : results.length ≤ top_k) :
    (2 ≤ (results.filter (fun r => r.similarity_score ≥ primary)).length →
      _retrieve_relevant_documents results primary fallback =
        (results.filter (fun r => r.similarity_score ≥ primary)).map to_doc_data) ∧
    ((results.filter (fun r => r.similarity_score ≥ primary)).length < 2 →
      (results.filter (fun r => r.similarity_score ≥ fallback)) ≠ [] →
      _retrieve_relevant_documents results primary fallback =
        (results.filter (fun r => r.similarity_score ≥ fallback)).map to_doc_data) ∧
    ((results.filter (fun r => r.similarity_score ≥ primary)).length < 2 →
      (results.filter (fun r => r.similarity_score ≥ fallback)) = [] →
      _retrieve_relevant_documents results primary fallback =
        ((sortDescBy (fun r => r.similarity_score) results).take 2).map to_doc_data) ∧
    (_retrieve_relevant_documents results primary fallback).length ≤ top_k := by
  have hfp : ∀ p : ℚ, (results.filter (fun r => r.similarity_score ≥ p)).length ≤
      results.length := fun p => List.length_filter_le _ _
  refine ⟨?_, ?_, ?_, ?_⟩
  · intro h2
    unfold _retrieve_relevant_documents
    dsimp only
    have hc1 : ¬(((results.filter (fun r => r.similarity_score ≥ primary)).map
        to_doc_data).length < 2 ∧ results ≠ []) := by
      rw [List.length_map]
      intro hand
      omega
    rw [if_neg hc1]
    have hc2 : ¬((results.filter (fun r => r.similarity_score ≥ primary)).map
        to_doc_data = [] ∧ results ≠ []) := by
      intro hand
      obtain ⟨hnil, _⟩ := hand
      rw [List.map_eq_nil_iff] at hnil
      rw [hnil] at h2
      simp at h2
    rw [if_neg hc2]
  · intro h2 hffne
    unfold _retrieve_relevant_documents
    dsimp only
    have hc1 : ((results.filter (fun r => r.similarity_score ≥ primary)).map
        to_doc_data).length < 2 ∧ results ≠ [] := by
      rw [List.length_map]
      exact ⟨h2, hne⟩
    rw [if_pos hc1]
    have hc2 : ¬((results.filter (fun r => r.similarity_score ≥ fallback)).map
        to_doc_data = [] ∧ results ≠ []) := by
      intro hand
      obtain ⟨hnil, _⟩ := hand
      rw [List.map_eq_nil_iff] at hnil
      exact hffne hnil
    rw [if_neg hc2]
  · intro h2 hffnil
    unfold _retrieve_relevant_documents
    dsimp only
    have hc1 : ((results.filter (fun r => r.similarity_score ≥ primary)).map
        to_doc_data).length < 2 ∧ results ≠ [] := by
      rw [List.length_map]
      exact ⟨h2, hne⟩
    rw [if_pos hc1]
    have hc2 : (results.filter (fun r => r.similarity_score ≥ fallback)).map
        to_doc_data = [] ∧ results ≠ [] := by
      constructor
      · rw [hffnil]
        rfl
      · exact hne
    rw [if_pos hc2]
  · unfold _retrieve_relevant_documents
    dsimp only
    split_ifs with h1 h2 h3
    · rw [List.length_map, List.length_take, length_sortDescBy]
      omega
    · rw [List.length_map]
      exact (hfp fallback).trans hlen
    · rw [List.length_map, List.length_take, length_sortDescBy]
      omega
    · rw [List.length_map]
      exact (hfp primary).trans hlen

/-- C6 witness: a single raw candidate at similarity 0.08 — below the primary
threshold 0.1 but above the fallback threshold 0.05 — is still returned, via
the fallback-threshold path. -/
theorem C6_graceful_threshold_fallback_witness :
    _retrieve_relevant_documents [c6Result] 0.1 0.05 = [to_doc_data c6Result] := by
  have h := (C6_graceful_threshold_fallback [c6Result] 0.1 0.05 8 (by decide)
    (by decide)).2.1
    (of_decide_eq_true (by with_unfolding_all rfl))
    (of_decide_eq_true (by with_unfolding_all rfl))
  rw [h]
  with_unfolding_all rfl

theorem mk_chunk_records_document_id (docId : PyStr) (chunkTexts : List PyStr)
    (timestamp : PyStr) :
    ∀ c ∈ mk_chunk_records docId chunkTexts timestamp, c.document_id = docId := by
  intro c hc
  obtain ⟨p, _, hp⟩ := List.mem_map.1 hc
  rw [← hp]

theorem mk_chunk_records_length (docId : PyStr) (chunkTexts : List PyStr)
    (timestamp : PyStr) :
    (mk_chunk_records docId chunkTexts timestamp).length = chunkTexts.length := by
  unfold mk_chunk_records
  rw [List.length_map, List.length_zip, List.length_range]
  omega

/-- C3: `index_document` first deletes every stored chunk whose metadata
`document_id` equals the target document's id and then inserts the new chunk
records; consequently, indexing the same content twice leaves the vector store
holding, for that `document_id`, exactly the chunk records of the latest run —
no duplicates and no leftovers — while records of other documents are
untouched.  (`_generate_embeddings_sync` calls `index_document` once per
relational chunk with the same `document_id`, so each such call also wipes the
chunks stored by the previous call.) -/
theorem C3_reindex_exactly_latest (docId content : PyStr) (chunkTexts : List PyStr)
    (t1 t2 : PyStr) (store : List VChunk)
    (hcontent : pyStrip content ≠ []) (hchunks : chunkTexts ≠ []) :
    index_document docId content chunkTexts t1 store =
      (true, delete_where_document_id store docId ++ mk_chunk_records docId chunkTexts t1) ∧
    ((index_document docId content chunkTexts t2
        (index_document docId content chunkTexts t1 store).2).2.filter
        (fun c => decide (c.document_id = docId))) = mk_chunk_records docId chunkTexts t2 ∧
    ((index_document docId content chunkTexts t2
        (index_document docId content chunkTexts t1 store).2).2.filter
        (fun c => decide (c.document_id = docId))).length = chunkTexts.length ∧
    ((index_document docId content chunkTexts t2
        (index_document docId content chunkTexts t1 store).2).2.filter
        (fun c => decide (c.document_id ≠ docId))) =
      store.filter (fun c => decide (c.document_id ≠ docId)) := by
  have hrun : ∀ (t : PyStr) (s : List VChunk),
      index_document docId content chunkTexts t s =
        (true, delete_where_document_id s docId ++ mk_chunk_records docId chunkTexts t) := by
    intro t s
    unfold index_document
    rw [if_neg (by simpa using hcontent), if_neg hchunks]
  have hdel_new : ∀ t : PyStr,
      (mk_chunk_records docId chunkTexts t).filter
        (fun c => decide (c.document_id ≠ docId)) = [] := by
    intro t
    rw [List.filter_eq_nil_iff]
    intro c hc
    simp [mk_chunk_records_document_id docId chunkTexts t c hc]
  have hkeep_new : ∀ t : PyStr,
      (mk_chunk_records docId chunkTexts t).filter
        (fun c => decide (c.document_id = docId)) = mk_chunk_records docId chunkTexts t := by
    intro t
    rw [List.filter_eq_self]
    intro c hc
    simp [mk_chunk_records_document_id docId chunkTexts t c hc]
  have hdrop_old : ∀ s : List VChunk,
      (delete_where_document_id s docId).filter
        (fun c => decide (c.document_id = docId)) = [] := by
    intro s
    rw [List.filter_eq_nil_iff]
    intro c hc
    have := (List.mem_filter.1 hc).2
    simp only [decide_eq_true_eq] at this ⊢
    exact this
  have hstable : ∀ s : List VChunk,
      (delete_where_document_id s docId).filter
        (fun c => decide (c.document_id ≠ docId)) = delete_where_document_id s docId := by
    intro s
    rw [List.filter_eq_self]
    intro c hc
    exact (List.mem_filter.1 hc).2
  have hdd : ∀ s : List VChunk,
      delete_where_document_id (delete_where_document_id s docId) docId =
        delete_where_document_id s docId := by
    intro s
    unfold delete_where_document_id
    rw [List.filter_eq_self]
    intro c hc
    exact (List.mem_filter.1 hc).2
  have hdnew : ∀ t : PyStr,
      delete_where_document_id (mk_chunk_records docId chunkTexts t) docId = [] := by
    intro t
    unfold delete_where_document_id
    exact hdel_new t
  have happ : ∀ (A B : List VChunk),
      delete_where_document_id (A ++ B) docId =
        delete_where_document_id A docId ++ delete_where_document_id B docId := by
    intro A B
    unfold delete_where_document_id
    exact List.filter_append _ _
  have hs2 : (index_document docId content chunkTexts t2
      (index_document docId content chunkTexts t1 store).2).2 =
      delete_where_document_id store docId ++ mk_chunk_records docId chunkTexts t2 := by
    rw [hrun t1 store]
    dsimp only
    rw [hrun t2 _]
    dsimp only
    rw [happ, hdd store, hdnew t1, List.append_nil]
  refine ⟨hrun t1 store, ?_, ?_, ?_⟩
  · rw [hs2, List.filter_append, hdrop_old store, hkeep_new t2, List.nil_append]
  · rw [hs2, List.filter_append, hdrop_old store, hkeep_new t2, List.nil_append]
    exact mk_chunk_records_length docId chunkTexts t2
  · rw [hs2, List.filter_append, hstable store, hdel_new t2, List.append_nil]
    rfl

/-- C3 witness: re-indexing document `"7"` (store initially holding a stale
chunk of `"7"` and a chunk of another document `"8"`) leaves exactly the two
fresh chunk records of the latest run under document id `"7"`. -/
theorem C3_reindex_exactly_latest_witness :
    ((index_document (pstr "7") (pstr "hello") [pstr "a", pstr "b"] (pstr "T2")
        (index_document (pstr "7") (pstr "hello") [pstr "a", pstr "b"] (pstr "T1")
          [{ chunk_id := pstr "old", document_id := pstr "7", text := pstr "stale" },
           { chunk_id := pstr "keep", document_id := pstr "8", text := pstr "x" }]).2).2.filter
        (fun c => decide (c.document_id = pstr "7"))) =
      mk_chunk_records (pstr "7") [pstr "a", pstr "b"] (pstr "T2") :=
  (C3_reindex_exactly_latest (pstr "7") (pstr "hello") [pstr "a", pstr "b"]
    (pstr "T1") (pstr "T2")
    [{ chunk_id := pstr "old", document_id := pstr "7", text := pstr "stale" },
     { chunk_id := pstr "keep", document_id := pstr "8", text := pstr "x" }]
    (by decide) (by decide)).2.1

/-- C7: when `process_document` is called on a file whose checksum matches an
already-stored document, it returns `success = False`, the existing document's
id and the message `"Document déjà existant"`, and the store is unchanged: no
document row, chunk row or vector record is created. -/
theorem C7_duplicate_short_circuit (db : DocumentStore) (checksum filename : PyStr)
    (new_id : Nat) (chunk_texts : List PyStr) (timestamp : PyStr) (d : StoredDocument)
    (hdup : _check_duplicate db checksum = some d) :
    process_document db checksum filename new_id chunk_texts timestamp =
      ({ document_id := d.id
         success := false
         chunks_count := 0
         error_message := some (pstr "Document déjà existant") }, db) ∧
    d ∈ db.documents ∧ d.file_hash = checksum := by
  refine ⟨?_, ?_, ?_⟩
  · unfold process_document
    rw [hdup]
  · unfold _check_duplicate at hdup
    exact List.mem_of_find?_eq_some hdup
  · unfold _check_duplicate at hdup
    have := List.find?_some hdup
    simpa using this

/-- C7 witness: re-uploading a byte-identical file (checksum `"H1"`, stored as
document 3) is rejected with the existing id and an unchanged store. -/
theorem C7_duplicate_short_circuit_witness :
    process_document
        { documents := [{ id := 3, file_hash := pstr "H1", filename := pstr "a.pdf" }] }
        (pstr "H1") (pstr "b.pdf") 9 [pstr "chunk"] (pstr "T") =
      ({ document_id := 3
         success := false
         chunks_count := 0
         error_message := some (pstr "Document déjà existant") },
       { documents := [{ id := 3, file_hash := pstr "H1", filename := pstr "a.pdf" }] }) :=
  (C7_duplicate_short_circuit
    { documents := [{ id := 3, file_hash := pstr "H1", filename := pstr "a.pdf" }] }
    (pstr "H1") (pstr "b.pdf") 9 [pstr "chunk"] (pstr "T")
    { id := 3, file_hash := pstr "H1", filename := pstr "a.pdf" }
    (by decide)).1
